import Mathlib

/-!
Shallow embedding of the 3D-chess rule engine
(src/lib/chess/models/types.ts, board.ts, movement.ts, game.ts).

The TypeScript `Board` is a JS `Map<string, Piece>` keyed by
`positionToKey(p) = "x,y,z"`, which is injective on integer triples, so we
model the board as an insertion-ordered association list keyed by `Position`
directly.  `Map.set` on a fresh key appends at the end and on an existing key
overwrites in place (`setEntry`); `Map.delete` removes the unique entry with
the key (`eraseKey`).  JS numbers are modelled as `Int` (all arithmetic in the
engine is small-integer arithmetic).  The optional field `hasMoved?: boolean`
is modelled as `Option Bool`: `none` is an absent field, and the runtime test
`'hasMoved' in piece` is `Option.isSome`.
-/

structure Position where
  x : Int
  y : Int
  z : Int
deriving DecidableEq, Repr

inductive PieceColor where
  | white
  | black
deriving DecidableEq, Repr

inductive PieceType where
  | pawn
  | rook
  | knight
  | bishop
  | queen
  | king
deriving DecidableEq, Repr

structure Piece where
  type : PieceType
  color : PieceColor
  position : Position
  hasMoved : Option Bool
deriving DecidableEq, Repr

inductive GameState where
  | active
  | check
  | checkmate
  | stalemate
deriving DecidableEq, Repr

/-- A move record; the source fields are `from`, `to`, `piece`,
`capturedPiece` (the `from`/`to` names are Lean keywords, hence
`fromPos`/`toPos`). -/
structure Move where
  fromPos : Position
  toPos : Position
  piece : Piece
  capturedPiece : Option Piece
deriving DecidableEq, Repr

abbrev Board : Type := List (Position × Piece)

structure Game where
  board : Board
  currentTurn : PieceColor
  moves : List Move
  state : GameState
deriving DecidableEq

/-- types.ts `isValidPosition`. -/
def isValidPosition (position : Position) : Bool :=
  position.x ≥ 1 && position.x ≤ 8 &&
  position.y ≥ 1 && position.y ≤ 8 &&
  position.z ≥ 1 && position.z ≤ 8

/-- types.ts `arePositionsEqual`. -/
def arePositionsEqual (pos1 pos2 : Position) : Bool :=
  pos1.x == pos2.x && pos1.y == pos2.y && pos1.z == pos2.z

/-- board.ts `getPiece`: `board.get(positionToKey(position))`. -/
def getPiece (board : Board) (position : Position) : Option Piece :=
  (List.find? (fun e => e.1 == position) board).map (fun e => e.2)

/-- `Map.set` on the underlying JS map: overwrite the entry with the given
key in place, or append a fresh entry at the end. -/
def setEntry (board : Board) (pos : Position) (piece : Piece) : Board :=
  match board with
  | [] => [(pos, piece)]
  | e :: rest =>
    if e.1 == pos then (pos, piece) :: rest
    else e :: setEntry rest pos piece

/-- board.ts `addPiece`: `board.set(positionToKey(piece.position), piece)`. -/
def addPiece (board : Board) (piece : Piece) : Board :=
  setEntry board piece.position piece

/-- `Map.delete` on the underlying JS map (keys are unique in a JS map, so
deleting the key removes every entry carrying it). -/
def eraseKey (board : Board) (pos : Position) : Board :=
  List.filter (fun e => !(e.1 == pos)) board

/-- board.ts `removePiece`: returns the occupant (if any) and the board with
the key deleted.  When the square is empty the source leaves the map
untouched; `eraseKey` is then the identity as well. -/
def removePiece (board : Board) (position : Position) :
    Option Piece × Board :=
  match getPiece board position with
  | some piece => (some piece, eraseKey board position)
  | none => (none, board)

/-- board.ts `movePiece`: remove the mover, capture the occupant of `to`,
update the mover's `position` and (when the field exists) `hasMoved`, and
reinsert it at `to`.  Returns the captured piece and the new board. -/
def movePiece (board : Board) (fromPos toPos : Position) :
    Option Piece × Board :=
  match removePiece board fromPos with
  | (some piece, b1) =>
    let capturedPiece := getPiece b1 toPos
    let b2 := match capturedPiece with
      | some _ => eraseKey b1 toPos
      | none => b1
    let moved : Piece :=
      { piece with
        position := toPos,
        hasMoved := piece.hasMoved.map (fun _ => true) }
    (capturedPiece, addPiece b2 moved)
  | (none, _) => (none, board)

/-- board.ts / game.ts `getPiecesByColor` (`board.forEach` enumerates the
entries in insertion order). -/
def getPiecesByColor (board : Board) (color : PieceColor) : List Piece :=
  List.filter (fun p => p.color == color) (List.map (fun e => e.2) board)

/-! ## Movement (movement.ts) -/

/-- One step of the sliding walk: the componentwise sum used by
`getLinearMoves` (`currentPos + dir`). -/
def stepPos (p d : Position) : Position :=
  ⟨p.x + d.x, p.y + d.y, p.z + d.z⟩

/-- The `while (true)` walk of movement.ts `getLinearMoves`, one direction at
a time, made structurally recursive on a fuel.  Every direction the engine
passes in has components in {-1,0,1} and is nonzero, so at most 8 consecutive
positions can be in bounds along a ray and the source loop always breaks by
its 9th iteration; `rayFuel = 9` therefore reproduces the loop exactly. -/
def walkRay (board : Board) (pieceColor : PieceColor) (cur d : Position) :
    Nat → List Position
  | 0 => []
  | fuel + 1 =>
    let next := stepPos cur d
    if isValidPosition next then
      match getPiece board next with
      | none => next :: walkRay board pieceColor next d fuel
      | some q => if q.color == pieceColor then [] else [next]
    else []

def rayFuel : Nat := 9

/-- movement.ts `getLinearMoves`. -/
def getLinearMoves (start : Position) (directions : List Position)
    (board : Board) (pieceColor : PieceColor) : List Position :=
  List.foldr (fun d acc => walkRay board pieceColor start d rayFuel ++ acc)
    [] directions

/-- The pawn direction: `piece.color === 'white' ? 1 : -1`. -/
def pawnDirection (color : PieceColor) : Int :=
  if color == PieceColor.white then 1 else -1

/-- Occupancy test used by the capture branches of `getPawnMoves`:
the square holds a piece of the other color. -/
def holdsOpponent (board : Board) (color : PieceColor) (pos : Position) :
    Bool :=
  match getPiece board pos with
  | some q => q.color != color
  | none => false

/-- movement.ts `getPawnMoves`, preserving the push order of the source:
forward (with the nested double step), xy-diagonal captures, vertical step,
diagonal-vertical captures. -/
def getPawnMoves (piece : Piece) (board : Board) : List Position :=
  let x := piece.position.x
  let y := piece.position.y
  let z := piece.position.z
  let direction := pawnDirection piece.color
  let forwardPos : Position := ⟨x, y + direction, z⟩
  let forwardList :=
    if isValidPosition forwardPos && (getPiece board forwardPos).isNone then
      forwardPos ::
        (if !(piece.hasMoved.getD false) then
          let doubleMove : Position := ⟨x, y + 2 * direction, z⟩
          if isValidPosition doubleMove &&
              (getPiece board doubleMove).isNone then
            [doubleMove]
          else []
        else [])
    else []
  let capturePositions : List Position :=
    [⟨x - 1, y + direction, z⟩, ⟨x + 1, y + direction, z⟩]
  let captures := List.filter
    (fun pos => isValidPosition pos && holdsOpponent board piece.color pos)
    capturePositions
  let upPos : Position := ⟨x, y, z + direction⟩
  let upList :=
    if isValidPosition upPos && (getPiece board upPos).isNone then [upPos]
    else []
  let diagonalCaptures : List Position :=
    [⟨x - 1, y + direction, z + 1⟩, ⟨x + 1, y + direction, z + 1⟩,
     ⟨x - 1, y + direction, z - 1⟩, ⟨x + 1, y + direction, z - 1⟩]
  let diagList := List.filter
    (fun pos => isValidPosition pos && holdsOpponent board piece.color pos)
    diagonalCaptures
  forwardList ++ captures ++ upList ++ diagList

/-- The six axis directions of movement.ts `getRookMoves`. -/
def rookDirections : List Position :=
  [⟨1, 0, 0⟩, ⟨-1, 0, 0⟩, ⟨0, 1, 0⟩, ⟨0, -1, 0⟩, ⟨0, 0, 1⟩, ⟨0, 0, -1⟩]

/-- movement.ts `getRookMoves`. -/
def getRookMoves (piece : Piece) (board : Board) : List Position :=
  getLinearMoves piece.position rookDirections board piece.color

/-- The 24 knight offsets of movement.ts `getKnightMoves`. -/
def knightOffsets : List Position :=
  [⟨1, 2, 0⟩, ⟨2, 1, 0⟩, ⟨-1, 2, 0⟩, ⟨-2, 1, 0⟩,
   ⟨1, -2, 0⟩, ⟨2, -1, 0⟩, ⟨-1, -2, 0⟩, ⟨-2, -1, 0⟩,
   ⟨1, 0, 2⟩, ⟨2, 0, 1⟩, ⟨-1, 0, 2⟩, ⟨-2, 0, 1⟩,
   ⟨1, 0, -2⟩, ⟨2, 0, -1⟩, ⟨-1, 0, -2⟩, ⟨-2, 0, -1⟩,
   ⟨0, 1, 2⟩, ⟨0, 2, 1⟩, ⟨0, -1, 2⟩, ⟨0, -2, 1⟩,
   ⟨0, 1, -2⟩, ⟨0, 2, -1⟩, ⟨0, -1, -2⟩, ⟨0, -2, -1⟩]

/-- Candidate filter shared by the knight and king generators: the offset
target is kept when it is in bounds and not occupied by a friendly piece. -/
def keepCandidate (board : Board) (color : PieceColor) (newPos : Position) :
    Option Position :=
  if isValidPosition newPos then
    match getPiece board newPos with
    | none => some newPos
    | some q => if q.color == color then none else some newPos
  else none

/-- movement.ts `getKnightMoves`. -/
def getKnightMoves (piece : Piece) (board : Board) : List Position :=
  List.filterMap
    (fun off => keepCandidate board piece.color (stepPos piece.position off))
    knightOffsets

/-- The 20 diagonal directions of movement.ts `getBishopMoves`. -/
def bishopDirections : List Position :=
  [⟨1, 1, 0⟩, ⟨1, -1, 0⟩, ⟨-1, 1, 0⟩, ⟨-1, -1, 0⟩,
   ⟨1, 0, 1⟩, ⟨1, 0, -1⟩, ⟨-1, 0, 1⟩, ⟨-1, 0, -1⟩,
   ⟨0, 1, 1⟩, ⟨0, 1, -1⟩, ⟨0, -1, 1⟩, ⟨0, -1, -1⟩,
   ⟨1, 1, 1⟩, ⟨1, 1, -1⟩, ⟨1, -1, 1⟩, ⟨1, -1, -1⟩,
   ⟨-1, 1, 1⟩, ⟨-1, 1, -1⟩, ⟨-1, -1, 1⟩, ⟨-1, -1, -1⟩]

/-- movement.ts `getBishopMoves`. -/
def getBishopMoves (piece : Piece) (board : Board) : List Position :=
  getLinearMoves piece.position bishopDirections board piece.color

/-- movement.ts `getQueenMoves`. -/
def getQueenMoves (piece : Piece) (board : Board) : List Position :=
  getRookMoves piece board ++ getBishopMoves piece board

/-- The loop deltas `-1, 0, 1` of `getKingMoves`, in loop order. -/
def kingDeltas : List Int := [-1, 0, 1]

/-- movement.ts `getKingMoves`: the 26 neighbours, skipping the all-zero
offset, keeping in-bounds squares not occupied by a friendly piece (the
three nested loops, in loop order). -/
def getKingMoves (piece : Piece) (board : Board) : List Position :=
  List.flatMap kingDeltas (fun dx =>
    List.flatMap kingDeltas (fun dy =>
      List.flatMap kingDeltas (fun dz =>
        if dx == 0 && dy == 0 && dz == 0 then []
        else
          match keepCandidate board piece.color
              (stepPos piece.position ⟨dx, dy, dz⟩) with
          | some q => [q]
          | none => [])))

/-- movement.ts `getValidMoves`: dispatch on the piece type. -/
def getValidMoves (piece : Piece) (board : Board) : List Position :=
  match piece.type with
  | PieceType.pawn => getPawnMoves piece board
  | PieceType.rook => getRookMoves piece board
  | PieceType.knight => getKnightMoves piece board
  | PieceType.bishop => getBishopMoves piece board
  | PieceType.queen => getQueenMoves piece board
  | PieceType.king => getKingMoves piece board

/-- movement.ts `isValidMove`. -/
def isValidMove (piece : Piece) (targetPos : Position) (board : Board) :
    Bool :=
  List.any (getValidMoves piece board)
    (fun pos => arePositionsEqual pos targetPos)

/-! ## Board setup (board.ts) -/

/-- board.ts `createEmptyBoard` (`new Map()`). -/
def createEmptyBoard : Board := []

/-- The x-files `1..8`, in loop order, as integers. -/
def fileRange : List Int := [1, 2, 3, 4, 5, 6, 7, 8]

/-- board.ts `setupBaseLayer`.  The source receives a layer argument `z` but
every placement hardcodes `z: 1`; the parameter is kept (unused) to mirror
the source.  Pawns, rooks and kings are created with `hasMoved: false`;
knights, bishops and queens are created without the field (`none`). -/
def setupBaseLayer (board : Board) (_z : Int) (color : PieceColor) : Board :=
  let backRowY : Int := if color == PieceColor.white then 1 else 8
  let pawnRowY : Int := if color == PieceColor.white then 2 else 7
  let b1 := List.foldl
    (fun b x => addPiece b
      { type := PieceType.pawn, color := color,
        position := ⟨x, pawnRowY, 1⟩, hasMoved := some false })
    board fileRange
  let b2 := addPiece b1
    { type := PieceType.rook, color := color,
      position := ⟨1, backRowY, 1⟩, hasMoved := some false }
  let b3 := addPiece b2
    { type := PieceType.rook, color := color,
      position := ⟨8, backRowY, 1⟩, hasMoved := some false }
  let b4 := addPiece b3
    { type := PieceType.knight, color := color,
      position := ⟨2, backRowY, 1⟩, hasMoved := none }
  let b5 := addPiece b4
    { type := PieceType.knight, color := color,
      position := ⟨7, backRowY, 1⟩, hasMoved := none }
  let b6 := addPiece b5
    { type := PieceType.bishop, color := color,
      position := ⟨3, backRowY, 1⟩, hasMoved := none }
  let b7 := addPiece b6
    { type := PieceType.bishop, color := color,
      position := ⟨6, backRowY, 1⟩, hasMoved := none }
  let b8 := addPiece b7
    { type := PieceType.queen, color := color,
      position := ⟨4, backRowY, 1⟩, hasMoved := none }
  addPiece b8
    { type := PieceType.king, color := color,
      position := ⟨5, backRowY, 1⟩, hasMoved := some false }

/-- board.ts `setupBoard`. -/
def setupBoard : Board :=
  setupBaseLayer (setupBaseLayer createEmptyBoard 1 PieceColor.white)
    8 PieceColor.black

/-! ## Game (game.ts) -/

/-- game.ts `createGame`. -/
def createGame : Game :=
  { board := setupBoard,
    currentTurn := PieceColor.white,
    moves := [],
    state := GameState.active }

/-- game.ts `findKing`. -/
def findKing (board : Board) (color : PieceColor) : Option Piece :=
  List.find? (fun piece => piece.type == PieceType.king)
    (getPiecesByColor board color)

/-- The turn flip `currentTurn === WHITE ? BLACK : WHITE`. -/
def oppositeColor (color : PieceColor) : PieceColor :=
  if color == PieceColor.white then PieceColor.black else PieceColor.white

/-- game.ts `isKingInCheck`: a missing king reports `false`. -/
def isKingInCheck (board : Board) (kingColor : PieceColor) : Bool :=
  match findKing board kingColor with
  | none => false
  | some king =>
    List.any (getPiecesByColor board (oppositeColor kingColor))
      (fun piece =>
        List.any (getValidMoves piece board)
          (fun pos => arePositionsEqual pos king.position))

/-- game.ts `hasValidMoves` (no self-check filtering, as in the source). -/
def hasValidMoves (game : Game) (color : PieceColor) : Bool :=
  List.any (getPiecesByColor game.board color)
    (fun piece => decide (0 < (getValidMoves piece game.board).length))

/-- game.ts `updateGameState`, as the pure state transformer it is: the new
`state` is computed from `board` and `currentTurn` alone. -/
def updateGameState (game : Game) : Game :=
  let kingInCheck := isKingInCheck game.board game.currentTurn
  let hasMovesAvailable := hasValidMoves game game.currentTurn
  { game with
    state :=
      if kingInCheck then
        if hasMovesAvailable then GameState.check else GameState.checkmate
      else
        if hasMovesAvailable then GameState.active else GameState.stalemate }

/-- game.ts `makeMove`.  The source mutates `game` and returns a boolean; the
embedding returns the boolean together with the post-state (the unchanged
game on every rejection path). -/
def makeMove (game : Game) (fromPos toPos : Position) : Bool × Game :=
  if game.state == GameState.checkmate ||
      game.state == GameState.stalemate then
    (false, game)
  else
    match getPiece game.board fromPos with
    | none => (false, game)
    | some piece =>
      if piece.color != game.currentTurn then (false, game)
      else if !(isValidMove piece toPos game.board) then (false, game)
      else
        let capturedPiece := getPiece game.board toPos
        let board2 := (movePiece game.board fromPos toPos).2
        let movedPiece : Piece :=
          { piece with
            position := toPos,
            hasMoved := piece.hasMoved.map (fun _ => true) }
        let move : Move :=
          { fromPos := fromPos, toPos := toPos,
            piece := movedPiece, capturedPiece := capturedPiece }
        let game2 : Game :=
          { board := board2,
            currentTurn := oppositeColor game.currentTurn,
            moves := game.moves ++ [move],
            state := game.state }
        (true, updateGameState game2)

/-- game.ts `getValidMovesForPosition`. -/
def getValidMovesForPosition (game : Game) (position : Position) :
    List Position :=
  match getPiece game.board position with
  | none => []
  | some piece =>
    if piece.color != game.currentTurn then []
    else getValidMoves piece game.board

/-! ## Coordinate codec (game.ts) -/

/-- Value of a digit run, most significant first (radix 10). -/
def digitsVal (ds : List Char) : Nat :=
  List.foldl (fun acc c => acc * 10 + (c.toNat - 48)) 0 ds

/-- The digit-run core of the JS builtin `parseInt`: longest leading run of
decimal digits, `NaN` (here `none`) when the run is empty, trailing
characters ignored. -/
def parseIntCore (cs : List Char) : Option Nat :=
  let ds := List.takeWhile Char.isDigit cs
  if ds.isEmpty then none else some (digitsVal ds)

/-- The JS builtin `parseInt` at its default radix 10, as used by
`notationToPosition`: optional leading spaces, optional sign, then the
longest leading digit run; `NaN` is `none`. -/
def parseIntJS (s : String) : Option Int :=
  let cs := List.dropWhile (fun c => c == ' ') s.data
  match cs with
  | '-' :: rest => (parseIntCore rest).map (fun n => -(n : Int))
  | '+' :: rest => (parseIntCore rest).map (fun n => (n : Int))
  | _ => (parseIntCore cs).map (fun n => (n : Int))

/-- game.ts `positionToNotation`:
`String.fromCharCode(65 + x - 1)` followed by `y` and `z` printed as JS
numbers. -/
def positionToNotation (position : Position) : String :=
  String.mk [Char.ofNat ((65 + position.x - 1).toNat)] ++
    toString position.y ++ toString position.z

/-- game.ts `notationToPosition`: reject strings shorter than 3; the first
character (uppercased) encodes `x`, the second `y`, the remaining substring
`z`; reject when a digit fails to parse or an axis leaves `1..8`. -/
def notationToPosition (s : String) : Option Position :=
  if s.length < 3 then none
  else
    match s.data with
    | c0 :: c1 :: rest =>
      let x : Int := (c0.toUpper.toNat : Int) - 65 + 1
      match parseIntJS (String.mk [c1]), parseIntJS (String.mk rest) with
      | some y, some z =>
        if x < 1 || x > 8 || y < 1 || y > 8 || z < 1 || z > 8 then none
        else some ⟨x, y, z⟩
      | _, _ => none
    | _ => none

/-! ## Board lemmas -/

theorem getPiece_nil (q : Position) : getPiece [] q = none := rfl

theorem getPiece_cons (e : Position × Piece) (rest : List (Position × Piece))
    (q : Position) :
    getPiece (e :: rest) q =
      if e.1 = q then some e.2 else getPiece rest q := by
  by_cases h : e.1 = q <;> simp [getPiece, List.find?_cons, h]

theorem setEntry_cons (e : Position × Piece) (rest : List (Position × Piece))
    (pos : Position) (p : Piece) :
    setEntry (e :: rest) pos p =
      if e.1 = pos then (pos, p) :: rest
      else e :: setEntry rest pos p := by
  by_cases h : e.1 = pos <;> simp [setEntry, h]

theorem eraseKey_cons (e : Position × Piece) (rest : List (Position × Piece))
    (pos : Position) :
    eraseKey (e :: rest) pos =
      if e.1 = pos then eraseKey rest pos
      else e :: eraseKey rest pos := by
  by_cases h : e.1 = pos <;> simp [eraseKey, List.filter_cons, h]

theorem getPiece_setEntry_self (board : Board) (pos : Position) (p : Piece) :
    getPiece (setEntry board pos p) pos = some p := by
  induction board with
  | nil => simp [setEntry, getPiece_cons]
  | cons e rest ih =>
    by_cases h : e.1 = pos
    · simp [setEntry_cons, h, getPiece_cons]
    · simp [setEntry_cons, h, getPiece_cons, ih]

theorem getPiece_setEntry_ne (board : Board) (pos q : Position) (p : Piece)
    (h : q ≠ pos) : getPiece (setEntry board pos p) q = getPiece board q := by
  induction board with
  | nil => simp [setEntry, getPiece_cons, getPiece_nil, Ne.symm h]
  | cons e rest ih =>
    by_cases he : e.1 = pos
    · have heq : e.1 ≠ q := fun hc => h (hc ▸ he)
      simp [setEntry_cons, he, getPiece_cons, Ne.symm h, heq]
    · simp [setEntry_cons, he, getPiece_cons, ih]

theorem getPiece_eraseKey_self (board : Board) (pos : Position) :
    getPiece (eraseKey board pos) pos = none := by
  induction board with
  | nil => simp [eraseKey, getPiece_nil]
  | cons e rest ih =>
    by_cases h : e.1 = pos <;>
      simp [eraseKey_cons, h, getPiece_cons, ih]

theorem getPiece_eraseKey_ne (board : Board) (pos q : Position)
    (h : q ≠ pos) : getPiece (eraseKey board pos) q = getPiece board q := by
  induction board with
  | nil => simp [eraseKey, getPiece_nil]
  | cons e rest ih =>
    by_cases he : e.1 = pos
    · have heq : e.1 ≠ q := fun hc => h (hc ▸ he)
      simp [eraseKey_cons, he, getPiece_cons, heq, Ne.symm h, ih]
    · simp [eraseKey_cons, he, getPiece_cons, ih]

theorem mem_setEntry_of_ne (board : Board) (pos : Position) (p : Piece)
    (e : Position × Piece) (he : e ∈ board) (hne : e.1 ≠ pos) :
    e ∈ setEntry board pos p := by
  induction board with
  | nil => cases he
  | cons f rest ih =>
    by_cases hf : f.1 = pos
    · rcases List.mem_cons.mp he with h | h
      · exact absurd (h ▸ hf) hne
      · simp [setEntry, hf, h]
    · rcases List.mem_cons.mp he with h | h
      · simp [setEntry, hf, h]
      · simp [setEntry, hf, ih h]

theorem mem_eraseKey_of_ne (board : Board) (pos : Position)
    (e : Position × Piece) (he : e ∈ board) (hne : e.1 ≠ pos) :
    e ∈ eraseKey board pos := by
  unfold eraseKey
  simp only [List.mem_filter]
  exact ⟨he, by simpa using hne⟩

/-- The representation invariant of the JS `Map`: a piece is stored under
the key of its own `position` (maintained by `addPiece`, which always keys
by `piece.position`). -/
def Coherent (board : Board) : Prop :=
  ∀ e ∈ board, (e.2).position = e.1

instance (board : Board) : Decidable (Coherent board) := by
  unfold Coherent
  infer_instance

theorem coherent_cons (e : Position × Piece) (rest : List (Position × Piece))
    (hc : Coherent (e :: rest)) : Coherent rest :=
  fun f hf => hc f (List.mem_cons_of_mem e hf)

theorem getPiece_coherent (board : Board) (pos : Position) (p : Piece)
    (hc : Coherent board) (h : getPiece board pos = some p) :
    p.position = pos := by
  induction board with
  | nil => simp [getPiece_nil] at h
  | cons e rest ih =>
    rw [getPiece_cons] at h
    by_cases he : e.1 = pos
    · rw [if_pos he] at h
      have h2 : e.2 = p := Option.some.inj h
      have h3 : (e.2).position = e.1 := hc e (List.mem_cons_self e rest)
      rw [← h2, h3, he]
    · rw [if_neg he] at h
      exact ih (coherent_cons e rest hc) h

/-- The other representation invariant of the JS `Map`: keys are unique. -/
def UniqueKeys (board : Board) : Prop :=
  List.Nodup (List.map (fun e => e.1) board)

instance (board : Board) : Decidable (UniqueKeys board) := by
  unfold UniqueKeys
  infer_instance

/-! ## The sliding walk, characterized -/

/-- The n-th position on the ray from `start` in direction `d`. -/
def ptAt (start d : Position) (n : Nat) : Position :=
  ⟨start.x + n * d.x, start.y + n * d.y, start.z + n * d.z⟩

theorem ptAt_one (s d : Position) : ptAt s d 1 = stepPos s d := by
  simp [ptAt, stepPos]

theorem ptAt_shift (s d : Position) (n : Nat) :
    ptAt (stepPos s d) d n = ptAt s d (n + 1) := by
  simp only [ptAt, stepPos, Position.mk.injEq]
  refine ⟨?_, ?_, ?_⟩ <;> push_cast <;> ring

/-- What it means for `q` to be produced by the sliding walk from `s` along
`d`: `q` is the `n`-th ray position for some positive `n` within the fuel,
every strictly earlier ray position is in bounds and empty, `q` itself is in
bounds, and `q` is not occupied by a piece of the walking color. -/
def RayHit (board : Board) (pieceColor : PieceColor) (s d : Position)
    (fuel : Nat) (q : Position) : Prop :=
  ∃ n : Nat, 1 ≤ n ∧ n ≤ fuel ∧ q = ptAt s d n ∧
    (∀ m : Nat, m < n → 1 ≤ m →
      isValidPosition (ptAt s d m) = true ∧
      getPiece board (ptAt s d m) = none) ∧
    isValidPosition q = true ∧
    (∀ p : Piece, getPiece board q = some p →
      (p.color == pieceColor) = false)

theorem mem_walkRay (board : Board) (pieceColor : PieceColor)
    (d : Position) :
    ∀ (fuel : Nat) (s q : Position),
      q ∈ walkRay board pieceColor s d fuel ↔
        RayHit board pieceColor s d fuel q := by
  intro fuel
  induction fuel with
  | zero =>
    intro s q
    simp only [walkRay, List.not_mem_nil, false_iff, RayHit]
    rintro ⟨n, h1, h2, -⟩
    omega
  | succ fuel ih =>
    intro s q
    rw [walkRay]
    cases hv : isValidPosition (stepPos s d) with
    | false =>
      simp only [Bool.false_eq_true, if_false, List.not_mem_nil, false_iff,
        RayHit]
      rintro ⟨n, h1, -, hq, hmid, hval, -⟩
      by_cases hn : n = 1
      · rw [hn, ptAt_one] at hq
        rw [hq] at hval
        rw [hval] at hv
        cases hv
      · have h2 : (1 : Nat) < n := by omega
        have := (hmid 1 h2 le_rfl).1
        rw [ptAt_one] at this
        rw [this] at hv
        cases hv
    | true =>
      simp only [if_true]
      cases hg : getPiece board (stepPos s d) with
      | none =>
        simp only [List.mem_cons, ih]
        constructor
        · rintro (hq | ⟨n, h1, hle, hq, hmid, hval, hocc⟩)
          · refine ⟨1, le_rfl, by omega, by rw [hq, ptAt_one], ?_, ?_, ?_⟩
            · intro m hm1 hm2
              omega
            · rw [hq]
              exact hv
            · intro p hp
              rw [hq, hg] at hp
              cases hp
          · refine ⟨n + 1, by omega, by omega,
              by rw [hq, ptAt_shift], ?_, hval, hocc⟩
            intro m hm1 hm2
            by_cases hm : m = 1
            · rw [hm, ptAt_one]
              exact ⟨hv, hg⟩
            · have hsh : ptAt s d m = ptAt (stepPos s d) d (m - 1) := by
                rw [ptAt_shift]
                congr 1
                omega
              rw [hsh]
              exact hmid (m - 1) (by omega) (by omega)
        · rintro ⟨n, h1, hle, hq, hmid, hval, hocc⟩
          by_cases hn : n = 1
          · left
            rw [hq, hn, ptAt_one]
          · right
            have hsh : q = ptAt (stepPos s d) d (n - 1) := by
              rw [ptAt_shift]
              rw [hq]
              congr 1
              omega
            refine ⟨n - 1, by omega, by omega, hsh, ?_, hval, hocc⟩
            intro m hm1 hm2
            have hsh2 : ptAt (stepPos s d) d m = ptAt s d (m + 1) :=
              ptAt_shift s d m
            rw [hsh2]
            exact hmid (m + 1) (by omega) (by omega)
      | some p =>
        dsimp only
        cases hc : p.color == pieceColor with
        | true =>
          rw [if_pos rfl]
          simp only [List.not_mem_nil, false_iff, RayHit]
          rintro ⟨n, h1, -, hq, hmid, -, hocc⟩
          by_cases hn : n = 1
          · rw [hn, ptAt_one] at hq
            have := hocc p (by rw [hq]; exact hg)
            rw [hc] at this
            cases this
          · have := (hmid 1 (by omega) le_rfl).2
            rw [ptAt_one] at this
            rw [this] at hg
            cases hg
        | false =>
          rw [if_neg Bool.false_ne_true]
          simp only [List.mem_singleton]
          constructor
          · intro hq
            refine ⟨1, le_rfl, by omega, by rw [hq, ptAt_one], ?_, ?_, ?_⟩
            · intro m hm1 hm2
              omega
            · rw [hq]
              exact hv
            · intro p2 hp2
              rw [hq, hg] at hp2
              rw [← Option.some.inj hp2]
              exact hc
          · rintro ⟨n, h1, -, hq, hmid, -, -⟩
            by_cases hn : n = 1
            · rw [hq, hn, ptAt_one]
            · have := (hmid 1 (by omega) le_rfl).2
              rw [ptAt_one] at this
              rw [this] at hg
              cases hg

/-! ## Ray lemmas -/

theorem mem_getLinearMoves (start : Position) (dirs : List Position)
    (board : Board) (color : PieceColor) (q : Position) :
    q ∈ getLinearMoves start dirs board color ↔
      ∃ d ∈ dirs, q ∈ walkRay board color start d rayFuel := by
  unfold getLinearMoves
  induction dirs with
  | nil => simp
  | cons d rest ih => simp [List.mem_append, ih]

theorem ptAt_ne_start (s d : Position) (n : Nat) (h1 : 1 ≤ n)
    (hd : d.x ≠ 0 ∨ d.y ≠ 0 ∨ d.z ≠ 0) : ptAt s d n ≠ s := by
  intro heq
  have hn : (n : Int) ≠ 0 := by
    simp only [ne_eq, Int.natCast_eq_zero]
    omega
  rcases hd with hx | hy | hz
  · have h := congrArg Position.x heq
    simp only [ptAt] at h
    have : (n : Int) * d.x = 0 := by linarith
    rcases mul_eq_zero.mp this with h0 | h0
    · exact hn h0
    · exact hx h0
  · have h := congrArg Position.y heq
    simp only [ptAt] at h
    have : (n : Int) * d.y = 0 := by linarith
    rcases mul_eq_zero.mp this with h0 | h0
    · exact hn h0
    · exact hy h0
  · have h := congrArg Position.z heq
    simp only [ptAt] at h
    have : (n : Int) * d.z = 0 := by linarith
    rcases mul_eq_zero.mp this with h0 | h0
    · exact hn h0
    · exact hz h0

/-- Along a rook direction from an in-bounds start, an in-bounds ray
position is at most 7 steps out, hence well within the walk fuel. -/
theorem rook_ray_bound (s d : Position) (n : Nat) (hd : d ∈ rookDirections)
    (hs : isValidPosition s = true)
    (hq : isValidPosition (ptAt s d n) = true) : n ≤ 7 := by
  simp only [rookDirections, List.mem_cons, List.mem_singleton,
    List.not_mem_nil, or_false] at hd
  simp only [isValidPosition, Bool.and_eq_true, decide_eq_true_eq] at hs hq
  rcases hd with rfl | rfl | rfl | rfl | rfl | rfl <;>
    simp only [ptAt, mul_one, mul_zero, mul_neg_one, add_zero] at hq <;>
    omega

/-- Two rook-direction ray positions with positive indices coincide only
when the directions and the indices coincide. -/
theorem rook_ray_inj (s d d2 : Position) (n n2 : Nat)
    (hd : d ∈ rookDirections) (hd2 : d2 ∈ rookDirections)
    (h1 : 1 ≤ n) (h12 : 1 ≤ n2)
    (heq : ptAt s d n = ptAt s d2 n2) : d = d2 ∧ n = n2 := by
  simp only [rookDirections, List.mem_cons, List.mem_singleton,
    List.not_mem_nil, or_false] at hd hd2
  rcases hd with rfl | rfl | rfl | rfl | rfl | rfl <;>
    rcases hd2 with rfl | rfl | rfl | rfl | rfl | rfl <;>
    simp only [ptAt, Position.mk.injEq, mul_one, mul_zero, mul_neg_one,
      add_zero, and_true, true_and, eq_self_iff_true] at heq ⊢ <;>
    omega

theorem mem_getRookMoves (piece : Piece) (board : Board) (q : Position) :
    q ∈ getRookMoves piece board ↔
      ∃ d ∈ rookDirections,
        RayHit board piece.color piece.position d rayFuel q := by
  unfold getRookMoves
  rw [mem_getLinearMoves]
  simp only [mem_walkRay]

theorem linear_moves_sound (start : Position) (dirs : List Position)
    (board : Board) (color : PieceColor) (q : Position)
    (hdirs : ∀ d ∈ dirs, d.x ≠ 0 ∨ d.y ≠ 0 ∨ d.z ≠ 0)
    (h : q ∈ getLinearMoves start dirs board color) :
    isValidPosition q = true ∧ q ≠ start ∧
      (∀ p : Piece, getPiece board q = some p →
        (p.color == color) = false) := by
  obtain ⟨d, hd, hw⟩ := (mem_getLinearMoves start dirs board color q).mp h
  obtain ⟨n, h1, -, rfl, -, hval, hocc⟩ :=
    (mem_walkRay board color d rayFuel start _).mp hw
  exact ⟨hval, ptAt_ne_start start d n h1 (hdirs d hd), hocc⟩

theorem rookDirections_nonzero :
    ∀ d ∈ rookDirections, d.x ≠ 0 ∨ d.y ≠ 0 ∨ d.z ≠ 0 := by decide

theorem bishopDirections_nonzero :
    ∀ d ∈ bishopDirections, d.x ≠ 0 ∨ d.y ≠ 0 ∨ d.z ≠ 0 := by decide

/-- C8: for a rook and a ray along one of its six axis directions, the
destination `n` steps out lies in the rook's legal destinations exactly when
every strictly earlier ray square is in bounds and empty, the destination is
in bounds, and the destination is not occupied by a friendly piece — so a
friendly first blocker excludes its square and everything beyond, an
opposing first blocker is included and everything beyond it excluded, and
the empty prefix of the ray is included square by square. -/
theorem rook_ray_capture_and_block (board : Board) (piece : Piece)
    (d : Position) (n : Nat)
    (htype : piece.type = PieceType.rook)
    (hpos : isValidPosition piece.position = true)
    (hd : d ∈ rookDirections) (hn : 1 ≤ n) :
    ptAt piece.position d n ∈ getValidMoves piece board ↔
      ((∀ m : Nat, m < n → 1 ≤ m →
          isValidPosition (ptAt piece.position d m) = true ∧
          getPiece board (ptAt piece.position d m) = none) ∧
        isValidPosition (ptAt piece.position d n) = true ∧
        (∀ p : Piece, getPiece board (ptAt piece.position d n) = some p →
          (p.color == piece.color) = false)) := by
  have hdisp : getValidMoves piece board = getRookMoves piece board := by
    unfold getValidMoves
    rw [htype]
  rw [hdisp, mem_getRookMoves]
  constructor
  · rintro ⟨d2, hd2, n2, h1, -, hq, hmid, hval, hocc⟩
    obtain ⟨rfl, rfl⟩ :=
      rook_ray_inj piece.position d d2 n n2 hd hd2 hn h1 hq
    exact ⟨hmid, hval, hocc⟩
  · rintro ⟨hmid, hval, hocc⟩
    have hbound := rook_ray_bound piece.position d n hd hpos hval
    refine ⟨d, hd, n, hn, ?_, rfl, hmid, hval, hocc⟩
    simp only [rayFuel]
    omega

/-- A lone white rook at (4,4,4), used by concrete instantiations. -/
def sampleRook : Piece :=
  { type := PieceType.rook, color := PieceColor.white,
    position := ⟨4, 4, 4⟩, hasMoved := some false }

/-- A black pawn at (6,4,4), two squares from `sampleRook` along +x. -/
def sampleTargetPawn : Piece :=
  { type := PieceType.pawn, color := PieceColor.black,
    position := ⟨6, 4, 4⟩, hasMoved := some false }

/-- A two-piece board: `sampleRook` and `sampleTargetPawn`. -/
def sampleRookBoard : Board :=
  [(⟨4, 4, 4⟩, sampleRook), (⟨6, 4, 4⟩, sampleTargetPawn)]

/-- Witness for `rook_ray_capture_and_block`: on `sampleRookBoard` the
opposing pawn's square two steps up the x-axis is a legal rook
destination. -/
theorem rook_ray_capture_and_block_witness :
    ptAt ⟨4, 4, 4⟩ ⟨1, 0, 0⟩ 2 ∈ getValidMoves sampleRook sampleRookBoard := by
  have h1 : sampleRook.position = (⟨4, 4, 4⟩ : Position) := rfl
  rw [← h1]
  apply (rook_ray_capture_and_block sampleRookBoard sampleRook ⟨1, 0, 0⟩ 2
    rfl (by decide) (by decide) (by decide)).mpr
  refine ⟨?_, by decide, ?_⟩
  · intro m hm1 hm2
    have hm : m = 1 := by omega
    subst hm
    exact ⟨by decide, by decide⟩
  · intro p hp
    have h2 : getPiece sampleRookBoard (ptAt sampleRook.position ⟨1, 0, 0⟩ 2) =
        some sampleTargetPawn := by decide
    have h3 : sampleTargetPawn = p := Option.some.inj (h2.symm.trans hp)
    rw [← h3]
    decide

/-! ## Soundness of every generator (bounds, not-self, not-friendly) -/

theorem arePositionsEqual_iff (p q : Position) :
    arePositionsEqual p q = true ↔ p = q := by
  cases p
  cases q
  simp [arePositionsEqual, Position.mk.injEq, and_assoc]

theorem pawnDirection_ne_zero (color : PieceColor) :
    pawnDirection color ≠ 0 := by
  unfold pawnDirection
  split <;> decide

theorem stepPos_ne_self (pos off : Position)
    (hoff : off.x ≠ 0 ∨ off.y ≠ 0 ∨ off.z ≠ 0) : stepPos pos off ≠ pos := by
  rw [← ptAt_one]
  exact ptAt_ne_start pos off 1 le_rfl hoff

theorem mk_ne_of_x (a b c : Int) (p : Position) (h : a ≠ p.x) :
    (⟨a, b, c⟩ : Position) ≠ p := by
  intro he
  cases he
  exact h rfl

theorem mk_ne_of_y (a b c : Int) (p : Position) (h : b ≠ p.y) :
    (⟨a, b, c⟩ : Position) ≠ p := by
  intro he
  cases he
  exact h rfl

theorem mk_ne_of_z (a b c : Int) (p : Position) (h : c ≠ p.z) :
    (⟨a, b, c⟩ : Position) ≠ p := by
  intro he
  cases he
  exact h rfl

theorem keepCandidate_sound (board : Board) (color : PieceColor)
    (np q : Position) (h : keepCandidate board color np = some q) :
    q = np ∧ isValidPosition np = true ∧
      (∀ p : Piece, getPiece board np = some p → p.color ≠ color) := by
  unfold keepCandidate at h
  by_cases hv : isValidPosition np = true
  · rw [if_pos hv] at h
    cases hg : getPiece board np with
    | none =>
      rw [hg] at h
      dsimp only at h
      refine ⟨(Option.some.inj h).symm, hv, ?_⟩
      intro p hp
      cases hp
    | some p =>
      rw [hg] at h
      dsimp only at h
      by_cases hc : (p.color == color) = true
      · rw [if_pos hc] at h
        cases h
      · rw [if_neg hc] at h
        refine ⟨(Option.some.inj h).symm, hv, ?_⟩
        intro p2 hp2
        rw [← Option.some.inj hp2]
        simpa using hc
  · rw [if_neg hv] at h
    cases h

theorem holdsOpponent_sound (board : Board) (color : PieceColor)
    (pos : Position) (h : holdsOpponent board color pos = true) :
    ∀ p : Piece, getPiece board pos = some p → p.color ≠ color := by
  intro p hp
  unfold holdsOpponent at h
  rw [hp] at h
  simpa using h

theorem pawn_moves_sound (piece : Piece) (board : Board) :
    ∀ q ∈ getPawnMoves piece board,
      isValidPosition q = true ∧ q ≠ piece.position ∧
        (∀ p : Piece, getPiece board q = some p → p.color ≠ piece.color) := by
  intro q hq
  have hdir := pawnDirection_ne_zero piece.color
  unfold getPawnMoves at hq
  simp only [List.mem_append, List.mem_filter, List.mem_cons,
    List.mem_singleton, List.not_mem_nil, or_false] at hq
  rcases hq with (((hfwd | hcap) | hup) | hdiag)
  · -- forward block: single step, possibly followed by the double step
    by_cases h1 : (isValidPosition
        (⟨piece.position.x, piece.position.y + pawnDirection piece.color,
          piece.position.z⟩ : Position) &&
        (getPiece board
          ⟨piece.position.x, piece.position.y + pawnDirection piece.color,
            piece.position.z⟩).isNone) = true
    · rw [if_pos h1] at hfwd
      rw [Bool.and_eq_true] at h1
      rcases List.mem_cons.mp hfwd with rfl | hdbl
      · refine ⟨h1.1, mk_ne_of_y _ _ _ _ (by omega), ?_⟩
        intro p hp
        rw [hp] at h1
        rcases h1 with ⟨-, hno⟩
        cases hno
      · by_cases h2 : (!(piece.hasMoved.getD false)) = true
        · rw [if_pos h2] at hdbl
          by_cases h3 : (isValidPosition
              (⟨piece.position.x,
                piece.position.y + 2 * pawnDirection piece.color,
                piece.position.z⟩ : Position) &&
              (getPiece board
                ⟨piece.position.x,
                  piece.position.y + 2 * pawnDirection piece.color,
                  piece.position.z⟩).isNone) = true
          · rw [if_pos h3] at hdbl
            obtain rfl := List.mem_singleton.mp hdbl
            rw [Bool.and_eq_true] at h3
            refine ⟨h3.1, mk_ne_of_y _ _ _ _ (by omega), ?_⟩
            intro p hp
            rw [hp] at h3
            rcases h3 with ⟨-, hno⟩
            cases hno
          · rw [if_neg h3] at hdbl
            cases hdbl
        · rw [if_neg h2] at hdbl
          cases hdbl
    · rw [if_neg h1] at hfwd
      cases hfwd
  · -- xy-diagonal captures
    obtain ⟨hmem, hpred⟩ := hcap
    rw [Bool.and_eq_true] at hpred
    have hocc := holdsOpponent_sound board piece.color q hpred.2
    refine ⟨hpred.1, ?_, hocc⟩
    rcases hmem with rfl | rfl <;>
      exact mk_ne_of_x _ _ _ _ (by omega)
  · -- vertical step
    by_cases h1 : (isValidPosition
        (⟨piece.position.x, piece.position.y,
          piece.position.z + pawnDirection piece.color⟩ : Position) &&
        (getPiece board
          ⟨piece.position.x, piece.position.y,
            piece.position.z + pawnDirection piece.color⟩).isNone) = true
    · rw [if_pos h1] at hup
      obtain rfl := List.mem_singleton.mp hup
      rw [Bool.and_eq_true] at h1
      refine ⟨h1.1, mk_ne_of_z _ _ _ _ (by omega), ?_⟩
      intro p hp
      rw [hp] at h1
      rcases h1 with ⟨-, hno⟩
      cases hno
    · rw [if_neg h1] at hup
      cases hup
  · -- diagonal-vertical captures
    obtain ⟨hmem, hpred⟩ := hdiag
    rw [Bool.and_eq_true] at hpred
    have hocc := holdsOpponent_sound board piece.color q hpred.2
    refine ⟨hpred.1, ?_, hocc⟩
    rcases hmem with rfl | rfl | rfl | rfl <;>
      exact mk_ne_of_x _ _ _ _ (by omega)

theorem knightOffsets_nonzero :
    ∀ d ∈ knightOffsets, d.x ≠ 0 ∨ d.y ≠ 0 ∨ d.z ≠ 0 := by decide

theorem knight_moves_sound (piece : Piece) (board : Board) :
    ∀ q ∈ getKnightMoves piece board,
      isValidPosition q = true ∧ q ≠ piece.position ∧
        (∀ p : Piece, getPiece board q = some p → p.color ≠ piece.color) := by
  intro q hq
  unfold getKnightMoves at hq
  obtain ⟨off, hoff, hkeep⟩ := List.mem_filterMap.mp hq
  obtain ⟨rfl, hval, hocc⟩ :=
    keepCandidate_sound board piece.color _ q hkeep
  exact ⟨hval,
    stepPos_ne_self piece.position off (knightOffsets_nonzero off hoff),
    hocc⟩

theorem king_moves_sound (piece : Piece) (board : Board) :
    ∀ q ∈ getKingMoves piece board,
      isValidPosition q = true ∧ q ≠ piece.position ∧
        (∀ p : Piece, getPiece board q = some p → p.color ≠ piece.color) := by
  intro q hq
  unfold getKingMoves at hq
  rw [List.mem_flatMap] at hq
  obtain ⟨dx, hdx, hq⟩ := hq
  rw [List.mem_flatMap] at hq
  obtain ⟨dy, hdy, hq⟩ := hq
  rw [List.mem_flatMap] at hq
  obtain ⟨dz, hdz, hq⟩ := hq
  by_cases hzero : (dx == 0 && dy == 0 && dz == 0) = true
  · rw [if_pos hzero] at hq
    cases hq
  · rw [if_neg hzero] at hq
    cases hkeep : keepCandidate board piece.color
        (stepPos piece.position ⟨dx, dy, dz⟩) with
    | none =>
      rw [hkeep] at hq
      cases hq
    | some q2 =>
      rw [hkeep] at hq
      obtain rfl := List.mem_singleton.mp hq
      obtain ⟨rfl, hval, hocc⟩ :=
        keepCandidate_sound board piece.color _ _ hkeep
      refine ⟨hval, ?_, hocc⟩
      apply stepPos_ne_self
      simp only [Bool.and_eq_true, beq_iff_eq] at hzero
      by_cases hx : dx = 0
      · by_cases hy : dy = 0
        · right
          right
          intro hz
          exact hzero ⟨⟨hx, hy⟩, hz⟩
        · right
          left
          exact hy
      · left
        exact hx

theorem rook_moves_sound (piece : Piece) (board : Board) :
    ∀ q ∈ getRookMoves piece board,
      isValidPosition q = true ∧ q ≠ piece.position ∧
        (∀ p : Piece, getPiece board q = some p → p.color ≠ piece.color) := by
  intro q hq
  obtain ⟨hval, hne, hocc⟩ := linear_moves_sound piece.position
    rookDirections board piece.color q rookDirections_nonzero hq
  refine ⟨hval, hne, ?_⟩
  intro p hp
  have := hocc p hp
  simpa using this

theorem bishop_moves_sound (piece : Piece) (board : Board) :
    ∀ q ∈ getBishopMoves piece board,
      isValidPosition q = true ∧ q ≠ piece.position ∧
        (∀ p : Piece, getPiece board q = some p → p.color ≠ piece.color) := by
  intro q hq
  obtain ⟨hval, hne, hocc⟩ := linear_moves_sound piece.position
    bishopDirections board piece.color q bishopDirections_nonzero hq
  refine ⟨hval, hne, ?_⟩
  intro p hp
  have := hocc p hp
  simpa using this

/-- Dispatch of the per-generator soundness facts over the piece kinds;
none of them needs the piece itself to stand in bounds. -/
theorem valid_moves_sound_core (piece : Piece) (board : Board) :
    ∀ q ∈ getValidMoves piece board,
      isValidPosition q = true ∧ q ≠ piece.position ∧
        (∀ p : Piece, getPiece board q = some p → p.color ≠ piece.color) := by
  intro q hq
  unfold getValidMoves at hq
  cases htype : piece.type
  all_goals rw [htype] at hq
  · exact pawn_moves_sound piece board q hq
  · exact rook_moves_sound piece board q hq
  · exact knight_moves_sound piece board q hq
  · exact bishop_moves_sound piece board q hq
  · rcases List.mem_append.mp hq with h | h
    · exact rook_moves_sound piece board q h
    · exact bishop_moves_sound piece board q h
  · exact king_moves_sound piece board q hq

/-- C10: every destination produced by `getValidMoves` is in bounds,
distinct from the piece's own square, and not occupied by a piece of the
mover's color. -/
theorem valid_moves_sound (piece : Piece) (board : Board)
    (_hpos : isValidPosition piece.position = true) :
    ∀ q ∈ getValidMoves piece board,
      isValidPosition q = true ∧ q ≠ piece.position ∧
        (∀ p : Piece, getPiece board q = some p → p.color ≠ piece.color) :=
  valid_moves_sound_core piece board

/-- Witness for `valid_moves_sound`: the knight destination (5,6,4) from a
lone knight at (4,4,4) on an otherwise empty board. -/
theorem valid_moves_sound_witness :
    isValidPosition ⟨5, 6, 4⟩ = true ∧
      (⟨5, 6, 4⟩ : Position) ≠
        (⟨4, 4, 4⟩ : Position) ∧
      (∀ p : Piece, getPiece ([] : Board) ⟨5, 6, 4⟩ = some p →
        p.color ≠ PieceColor.white) := by
  have h := valid_moves_sound
    { type := PieceType.knight, color := PieceColor.white,
      position := ⟨4, 4, 4⟩, hasMoved := none }
    ([] : Board) (by decide) ⟨5, 6, 4⟩ (by decide)
  exact h

/-! ## Game-level claims -/

/-- C5: once the game is checkmate or stalemate, `makeMove` rejects every
coordinate pair and returns the game unchanged. -/
theorem terminal_rejects_all (game : Game) (fromPos toPos : Position)
    (h : game.state = GameState.checkmate ∨
      game.state = GameState.stalemate) :
    makeMove game fromPos toPos = (false, game) := by
  unfold makeMove
  rcases h with h | h <;> rw [h] <;> simp

/-- A game record already in checkmate, for concrete instantiations. -/
def checkmateSampleGame : Game :=
  { board := [], currentTurn := PieceColor.white, moves := [],
    state := GameState.checkmate }

/-- Witness for `terminal_rejects_all`. -/
theorem terminal_rejects_all_witness :
    makeMove checkmateSampleGame ⟨1, 1, 1⟩ ⟨1, 2, 1⟩ =
      (false, checkmateSampleGame) :=
  terminal_rejects_all checkmateSampleGame ⟨1, 1, 1⟩ ⟨1, 2, 1⟩ (Or.inl rfl)

/-- C6: an empty source square, a mover of the wrong color, or a
destination outside the mover's legal-destination set makes `makeMove`
return false with the game (board, turn, history, state) unchanged. -/
theorem invalid_request_rejected (game : Game) (fromPos toPos : Position)
    (h : getPiece game.board fromPos = none ∨
      (∃ piece : Piece, getPiece game.board fromPos = some piece ∧
        piece.color ≠ game.currentTurn) ∨
      (∃ piece : Piece, getPiece game.board fromPos = some piece ∧
        isValidMove piece toPos game.board = false)) :
    makeMove game fromPos toPos = (false, game) := by
  unfold makeMove
  by_cases h1 : (game.state == GameState.checkmate ||
      game.state == GameState.stalemate) = true
  · rw [if_pos h1]
  · rw [if_neg h1]
    rcases h with h | ⟨piece, hp, hc⟩ | ⟨piece, hp, hv⟩
    · rw [h]
    · rw [hp]
      dsimp only
      rw [if_pos (bne_iff_ne.mpr hc)]
    · rw [hp]
      dsimp only
      by_cases h2 : (piece.color != game.currentTurn) = true
      · rw [if_pos h2]
      · rw [if_neg h2]
        rw [if_pos (by rw [hv]; rfl)]

/-- Witness for `invalid_request_rejected`: in the freshly created game the
square (1,5,1) is empty. -/
theorem invalid_request_rejected_witness :
    makeMove createGame ⟨1, 5, 1⟩ ⟨1, 6, 1⟩ = (false, createGame) :=
  invalid_request_rejected createGame ⟨1, 5, 1⟩ ⟨1, 6, 1⟩
    (Or.inl (by decide))

/-- The spec's pure classification of a board and a side to move: the side
is in check when some opposing piece's legal-destination set contains its
king's coordinate (a missing king counts as not in check); combined with
whether any piece of the side has a non-empty legal-destination set this
yields check / checkmate / active / stalemate. -/
def specKingAttacked (board : Board) (color : PieceColor) : Bool :=
  match findKing board color with
  | none => false
  | some king =>
    List.any (getPiecesByColor board (oppositeColor color))
      (fun piece =>
        List.any (getValidMoves piece board)
          (fun pos => arePositionsEqual pos king.position))

/-- Spec side of C4: some piece of the side has at least one legal
destination. -/
def specSideHasMoves (board : Board) (color : PieceColor) : Bool :=
  List.any (getPiecesByColor board color)
    (fun piece => !(List.isEmpty (getValidMoves piece board)))

/-- Spec side of C4: the four-way classification. -/
def specClassify (board : Board) (color : PieceColor) : GameState :=
  if specKingAttacked board color then
    if specSideHasMoves board color then GameState.check
    else GameState.checkmate
  else
    if specSideHasMoves board color then GameState.active
    else GameState.stalemate

theorem specKingAttacked_eq (board : Board) (color : PieceColor) :
    specKingAttacked board color = isKingInCheck board color := rfl

theorem not_isEmpty_eq (l : List Position) :
    (!(List.isEmpty l)) = decide (0 < l.length) := by
  cases l <;> simp

theorem specSideHasMoves_eq (game : Game) (color : PieceColor) :
    specSideHasMoves game.board color = hasValidMoves game color := by
  unfold specSideHasMoves hasValidMoves
  congr 1
  funext piece
  rw [not_isEmpty_eq]

theorem updateGameState_spec (game : Game) :
    (updateGameState game).state =
        specClassify game.board game.currentTurn ∧
      (updateGameState game).board = game.board ∧
      (updateGameState game).currentTurn = game.currentTurn := by
  refine ⟨?_, rfl, rfl⟩
  unfold updateGameState specClassify
  rw [specKingAttacked_eq, specSideHasMoves_eq]

/-- C4: after every accepted move, the stored `state` equals the pure
classification of the new board and the new side to move. -/
theorem state_recomputed_after_move (game : Game) (fromPos toPos : Position)
    (h : (makeMove game fromPos toPos).1 = true) :
    (makeMove game fromPos toPos).2.state =
      specClassify (makeMove game fromPos toPos).2.board
        (makeMove game fromPos toPos).2.currentTurn := by
  unfold makeMove at h ⊢
  by_cases h1 : (game.state == GameState.checkmate ||
      game.state == GameState.stalemate) = true
  · rw [if_pos h1] at h
    cases h
  · rw [if_neg h1] at h ⊢
    cases hp : getPiece game.board fromPos with
    | none =>
      rw [hp] at h
      simp at h
    | some piece =>
      rw [hp] at h
      dsimp only at h ⊢
      by_cases h2 : (piece.color != game.currentTurn) = true
      · rw [if_pos h2] at h
        cases h
      · rw [if_neg h2] at h ⊢
        by_cases h3 : (!(isValidMove piece toPos game.board)) = true
        · rw [if_pos h3] at h
          cases h
        · rw [if_neg h3] at h ⊢
          dsimp only
          obtain ⟨hstate, hboard, hturn⟩ := updateGameState_spec
            { board := (movePiece game.board fromPos toPos).2,
              currentTurn := oppositeColor game.currentTurn,
              moves := game.moves ++
                [{ fromPos := fromPos, toPos := toPos,
                   piece :=
                     { piece with
                       position := toPos,
                       hasMoved := piece.hasMoved.map (fun _ => true) },
                   capturedPiece := getPiece game.board toPos }],
              state := game.state }
          rw [hstate, hboard, hturn]

/-- A three-piece game (two kings and a white pawn), used to instantiate
the game-level theorems concretely. -/
def smallSampleGame : Game :=
  { board :=
      [(⟨1, 1, 1⟩,
        { type := PieceType.king, color := PieceColor.white,
          position := ⟨1, 1, 1⟩, hasMoved := some false }),
       (⟨8, 8, 8⟩,
        { type := PieceType.king, color := PieceColor.black,
          position := ⟨8, 8, 8⟩, hasMoved := some false }),
       (⟨4, 4, 4⟩,
        { type := PieceType.pawn, color := PieceColor.white,
          position := ⟨4, 4, 4⟩, hasMoved := some false })],
    currentTurn := PieceColor.white,
    moves := [],
    state := GameState.active }

/-- Witness for `state_recomputed_after_move`: the pawn advance in
`smallSampleGame` is accepted and leaves the recomputed state. -/
theorem state_recomputed_after_move_witness :
    (makeMove smallSampleGame ⟨4, 4, 4⟩ ⟨4, 5, 4⟩).1 = true ∧
      (makeMove smallSampleGame ⟨4, 4, 4⟩ ⟨4, 5, 4⟩).2.state =
        specClassify (makeMove smallSampleGame ⟨4, 4, 4⟩ ⟨4, 5, 4⟩).2.board
          (makeMove smallSampleGame ⟨4, 4, 4⟩ ⟨4, 5, 4⟩).2.currentTurn :=
  ⟨by decide,
    state_recomputed_after_move smallSampleGame ⟨4, 4, 4⟩ ⟨4, 5, 4⟩
      (by decide)⟩

/-- A pawn that has already moved never gets the two-step y-advance again:
the double step is generated only under `!piece.hasMoved`. -/
theorem moved_pawn_no_double (piece : Piece) (board : Board)
    (htype : piece.type = PieceType.pawn)
    (hmoved : piece.hasMoved = some true) :
    (⟨piece.position.x,
      piece.position.y + 2 * pawnDirection piece.color,
      piece.position.z⟩ : Position) ∉ getValidMoves piece board := by
  intro hq
  have hdir := pawnDirection_ne_zero piece.color
  unfold getValidMoves at hq
  rw [htype] at hq
  unfold getPawnMoves at hq
  simp only [List.mem_append, List.mem_filter, List.mem_cons,
    List.mem_singleton, List.not_mem_nil, or_false] at hq
  rcases hq with (((hfwd | hcap) | hup) | hdiag)
  · by_cases h1 : (isValidPosition
        (⟨piece.position.x, piece.position.y + pawnDirection piece.color,
          piece.position.z⟩ : Position) &&
        (getPiece board
          ⟨piece.position.x, piece.position.y + pawnDirection piece.color,
            piece.position.z⟩).isNone) = true
    · rw [if_pos h1] at hfwd
      rcases List.mem_cons.mp hfwd with heq | hdbl
      · simp only [Position.mk.injEq] at heq
        omega
      · rw [hmoved] at hdbl
        simp at hdbl
    · rw [if_neg h1] at hfwd
      cases hfwd
  · obtain ⟨hmem, -⟩ := hcap
    rcases hmem with heq | heq <;>
      · simp only [Position.mk.injEq] at heq
        omega
  · by_cases h1 : (isValidPosition
        (⟨piece.position.x, piece.position.y,
          piece.position.z + pawnDirection piece.color⟩ : Position) &&
        (getPiece board
          ⟨piece.position.x, piece.position.y,
            piece.position.z + pawnDirection piece.color⟩).isNone) = true
    · rw [if_pos h1] at hup
      have heq := List.mem_singleton.mp hup
      simp only [Position.mk.injEq] at heq
      omega
    · rw [if_neg h1] at hup
      cases hup
  · obtain ⟨hmem, -⟩ := hdiag
    rcases hmem with heq | heq | heq | heq <;>
      · simp only [Position.mk.injEq] at heq
        omega

/-- The white pawn the fresh game holds at (1,2,1). -/
def initialWhitePawnA2 : Piece :=
  { type := PieceType.pawn, color := PieceColor.white,
    position := ⟨1, 2, 1⟩, hasMoved := some false }

/-- C7: in the freshly created game the white pawn at (1,2,1) may step to
(1,3,1), double-step to (1,4,1), and climb to (1,2,2); and in general a
pawn whose `hasMoved` flag is set is never offered the two-step y-advance
from its current square. -/
theorem pawn_initial_and_double_step :
    (∃ p : Piece, getPiece createGame.board ⟨1, 2, 1⟩ = some p ∧
      (⟨1, 3, 1⟩ : Position) ∈ getValidMoves p createGame.board ∧
      (⟨1, 4, 1⟩ : Position) ∈ getValidMoves p createGame.board ∧
      (⟨1, 2, 2⟩ : Position) ∈ getValidMoves p createGame.board) ∧
    (∀ (piece : Piece) (board : Board), piece.type = PieceType.pawn →
      piece.hasMoved = some true →
      (⟨piece.position.x,
        piece.position.y + 2 * pawnDirection piece.color,
        piece.position.z⟩ : Position) ∉ getValidMoves piece board) := by
  constructor
  · exact ⟨initialWhitePawnA2, by decide, by decide, by decide, by decide⟩
  · intro piece board htype hmoved
    exact moved_pawn_no_double piece board htype hmoved

/-- A white pawn that has already moved, sitting at (1,3,1). -/
def movedPawnSample : Piece :=
  { type := PieceType.pawn, color := PieceColor.white,
    position := ⟨1, 3, 1⟩, hasMoved := some true }

/-- Witness for `pawn_initial_and_double_step`: the moved pawn at (1,3,1)
is not offered (1,5,1) even on an empty board. -/
theorem pawn_initial_and_double_step_witness :
    (⟨1, 5, 1⟩ : Position) ∉ getValidMoves movedPawnSample [] := by
  have h := pawn_initial_and_double_step.2 movedPawnSample [] rfl rfl
  simpa [movedPawnSample, pawnDirection] using h

/-! ## C3: the setup layout -/

/-- C3 counterexample: the claim puts Black's back-rank pieces at z = 8,
but `setupBoard` leaves (5,8,8) empty and holds the black king at
(5,8,1). -/
theorem setup_black_back_rank_not_at_z8 :
    getPiece setupBoard ⟨5, 8, 8⟩ = none ∧
      (getPiece setupBoard ⟨5, 8, 1⟩).map
          (fun p => (p.type, p.color)) =
        some (PieceType.king, PieceColor.black) := by decide

/-- The back-rank piece kinds by file, as placed by `setupBaseLayer`. -/
def backRankKinds : List (Int × PieceType) :=
  [(1, PieceType.rook), (2, PieceType.knight), (3, PieceType.bishop),
   (4, PieceType.queen), (5, PieceType.king), (6, PieceType.bishop),
   (7, PieceType.knight), (8, PieceType.rook)]

/-- C3 amended: White's back rank is on y = 1 and its pawns on y = 2,
Black's on y = 8 and y = 7, but every piece of both colors sits on layer
z = 1 (the z argument of `setupBaseLayer` is ignored), so Black's back rank
is at z = 1 as well and layer z = 8 is empty. -/
theorem setup_layout_all_layer_one :
    (List.all backRankKinds (fun e =>
      ((getPiece setupBoard ⟨e.1, 1, 1⟩).map (fun p => (p.type, p.color)) ==
        some (e.2, PieceColor.white)) &&
      ((getPiece setupBoard ⟨e.1, 8, 1⟩).map (fun p => (p.type, p.color)) ==
        some (e.2, PieceColor.black)))) = true ∧
    (List.all fileRange (fun x =>
      ((getPiece setupBoard ⟨x, 2, 1⟩).map (fun p => (p.type, p.color)) ==
        some (PieceType.pawn, PieceColor.white)) &&
      ((getPiece setupBoard ⟨x, 7, 1⟩).map (fun p => (p.type, p.color)) ==
        some (PieceType.pawn, PieceColor.black)))) = true ∧
    (List.all setupBoard (fun e => e.1.z == 1)) = true := by decide

/-! ## List-level helper lemmas for the game claims -/

theorem find?_mem_and {α : Type} (p : α → Bool) (l : List α) (a : α)
    (h : List.find? p l = some a) : a ∈ l ∧ p a = true := by
  induction l with
  | nil => cases h
  | cons x rest ih =>
    rw [List.find?_cons] at h
    cases hp : p x with
    | true =>
      rw [hp] at h
      exact ⟨List.mem_cons.mpr (Or.inl (Option.some.inj h).symm),
        (Option.some.inj h) ▸ hp⟩
    | false =>
      rw [hp] at h
      obtain ⟨hmem, hpa⟩ := ih h
      exact ⟨List.mem_cons.mpr (Or.inr hmem), hpa⟩

theorem exists_find?_of_mem {α : Type} (p : α → Bool) (l : List α) (a : α)
    (ha : a ∈ l) (hp : p a = true) : ∃ b, List.find? p l = some b := by
  induction l with
  | nil => cases ha
  | cons x rest ih =>
    rw [List.find?_cons]
    cases hx : p x with
    | true => exact ⟨x, rfl⟩
    | false =>
      rcases List.mem_cons.mp ha with rfl | hmem
      · rw [hx] at hp
        cases hp
      · exact ih hmem

theorem getPiece_some_mem (board : Board) (pos : Position) (p : Piece)
    (h : getPiece board pos = some p) : (pos, p) ∈ board := by
  unfold getPiece at h
  cases hf : List.find? (fun e => e.1 == pos) board with
  | none =>
    rw [hf] at h
    cases h
  | some e =>
    rw [hf] at h
    obtain ⟨hmem, hkey⟩ := find?_mem_and _ _ _ hf
    have h1 : e.1 = pos := by simpa using hkey
    have h2 : e.2 = p := Option.some.inj h
    have : e = (pos, p) := Prod.ext h1 h2
    rw [← this]
    exact hmem

theorem getPiece_eq_of_mem_unique (board : Board)
    (e : Position × Piece) (huniq : UniqueKeys board) (he : e ∈ board) :
    getPiece board e.1 = some e.2 := by
  induction board with
  | nil => cases he
  | cons f rest ih =>
    rcases List.mem_cons.mp he with rfl | hmem
    · rw [getPiece_cons, if_pos rfl]
    · have hne : f.1 ≠ e.1 := by
        unfold UniqueKeys at huniq
        rw [List.map_cons, List.nodup_cons] at huniq
        intro hc
        exact huniq.1 (hc ▸ List.mem_map_of_mem (fun x => x.1) hmem)
      rw [getPiece_cons, if_neg hne]
      refine ih ?_ hmem
      unfold UniqueKeys at huniq ⊢
      rw [List.map_cons, List.nodup_cons] at huniq
      exact huniq.2

theorem uniqueKeys_eraseKey (board : Board) (pos : Position)
    (h : UniqueKeys board) : UniqueKeys (eraseKey board pos) := by
  unfold UniqueKeys at h ⊢
  unfold eraseKey
  exact ((List.filter_sublist board).map (fun e => e.1)).nodup h

theorem mem_getPiecesByColor (board : Board) (color : PieceColor)
    (p : Piece) :
    p ∈ getPiecesByColor board color ↔
      (∃ e ∈ board, e.2 = p) ∧ (p.color == color) = true := by
  unfold getPiecesByColor
  rw [List.mem_filter, List.mem_map]

theorem isValidMove_mem (piece : Piece) (targetPos : Position)
    (board : Board) (h : isValidMove piece targetPos board = true) :
    targetPos ∈ getValidMoves piece board := by
  unfold isValidMove at h
  obtain ⟨pos, hmem, heq⟩ := List.any_eq_true.mp h
  rw [arePositionsEqual_iff] at heq
  rw [← heq]
  exact hmem

/-- Elimination of a successful `makeMove`: the guards that passed, and the
exact shape of the post-state. -/
theorem makeMove_true_elim (game : Game) (fromPos toPos : Position)
    (h : (makeMove game fromPos toPos).1 = true) :
    ∃ piece : Piece, getPiece game.board fromPos = some piece ∧
      piece.color = game.currentTurn ∧
      isValidMove piece toPos game.board = true ∧
      (makeMove game fromPos toPos).2 =
        updateGameState
          { board := (movePiece game.board fromPos toPos).2,
            currentTurn := oppositeColor game.currentTurn,
            moves := game.moves ++
              [{ fromPos := fromPos, toPos := toPos,
                 piece :=
                   { piece with
                     position := toPos,
                     hasMoved := piece.hasMoved.map (fun _ => true) },
                 capturedPiece := getPiece game.board toPos }],
            state := game.state } := by
  unfold makeMove at h ⊢
  by_cases h1 : (game.state == GameState.checkmate ||
      game.state == GameState.stalemate) = true
  · rw [if_pos h1] at h
    cases h
  · rw [if_neg h1] at h ⊢
    cases hp : getPiece game.board fromPos with
    | none =>
      rw [hp] at h
      simp at h
    | some piece =>
      rw [hp] at h
      dsimp only at h ⊢
      by_cases h2 : (piece.color != game.currentTurn) = true
      · rw [if_pos h2] at h
        cases h
      · rw [if_neg h2] at h ⊢
        by_cases h3 : (!(isValidMove piece toPos game.board)) = true
        · rw [if_pos h3] at h
          cases h
        · rw [if_neg h3] at h ⊢
          refine ⟨piece, rfl, ?_, ?_, rfl⟩
          · simpa using h2
          · simpa using h3

theorem movePiece_board_effect (board : Board) (fromPos toPos : Position)
    (piece : Piece) (hp : getPiece board fromPos = some piece)
    (hne : fromPos ≠ toPos) :
    getPiece (movePiece board fromPos toPos).2 fromPos = none ∧
      getPiece (movePiece board fromPos toPos).2 toPos =
        some { piece with
          position := toPos,
          hasMoved := piece.hasMoved.map (fun _ => true) } := by
  unfold movePiece removePiece addPiece
  rw [hp]
  dsimp only
  cases hc : getPiece (eraseKey board fromPos) toPos with
  | none =>
    dsimp only
    constructor
    · rw [getPiece_setEntry_ne _ _ _ _ hne]
      exact getPiece_eraseKey_self board fromPos
    · exact getPiece_setEntry_self _ _ _
  | some cap =>
    dsimp only
    constructor
    · rw [getPiece_setEntry_ne _ _ _ _ hne]
      rw [getPiece_eraseKey_ne _ _ _ hne]
      exact getPiece_eraseKey_self board fromPos
    · exact getPiece_setEntry_self _ _ _

/-- C2 amended: an accepted move appends exactly one record to the history,
flips the turn, empties the origin, and stores the mover at the destination
with its position updated; `hasMoved` becomes `true` exactly when the piece
carried the field (as pawns, rooks and kings from the initial layout do) and
stays absent otherwise (knights, bishops, queens of the initial layout). -/
theorem accepted_move_updates_atomically (game : Game)
    (fromPos toPos : Position)
    (hcoh : Coherent game.board)
    (h : (makeMove game fromPos toPos).1 = true) :
    (makeMove game fromPos toPos).2.moves.length =
        game.moves.length + 1 ∧
      (makeMove game fromPos toPos).2.currentTurn =
        oppositeColor game.currentTurn ∧
      getPiece (makeMove game fromPos toPos).2.board fromPos = none ∧
      (∃ piece : Piece, getPiece game.board fromPos = some piece ∧
        getPiece (makeMove game fromPos toPos).2.board toPos =
          some { piece with
            position := toPos,
            hasMoved := piece.hasMoved.map (fun _ => true) }) := by
  obtain ⟨piece, hp, hcolor, hvalid, heq⟩ :=
    makeMove_true_elim game fromPos toPos h
  have hmem := isValidMove_mem piece toPos game.board hvalid
  have hne2 := (valid_moves_sound_core piece game.board toPos hmem).2.1
  have hposeq := getPiece_coherent game.board fromPos piece hcoh hp
  have hne : fromPos ≠ toPos := by
    rw [← hposeq]
    exact fun hx => hne2 hx.symm
  obtain ⟨hfrom, hto⟩ :=
    movePiece_board_effect game.board fromPos toPos piece hp hne
  rw [heq]
  unfold updateGameState
  refine ⟨?_, rfl, hfrom, piece, hp, hto⟩
  simp

theorem movePiece_mem_preserved (board : Board) (fromPos toPos : Position)
    (piece : Piece) (hp : getPiece board fromPos = some piece)
    (e : Position × Piece) (he : e ∈ board)
    (hef : e.1 ≠ fromPos) (het : e.1 ≠ toPos) :
    e ∈ (movePiece board fromPos toPos).2 := by
  unfold movePiece removePiece addPiece
  rw [hp]
  dsimp only
  cases hc : getPiece (eraseKey board fromPos) toPos with
  | none =>
    dsimp only
    exact mem_setEntry_of_ne _ _ _ e
      (mem_eraseKey_of_ne board fromPos e he hef) het
  | some cap =>
    dsimp only
    exact mem_setEntry_of_ne _ _ _ e
      (mem_eraseKey_of_ne _ toPos e
        (mem_eraseKey_of_ne board fromPos e he hef) het) het

/-- C1 amended, positive half: an accepted move never removes the moving
side's own king — only the opponent's king, standing on the destination
square, can ever be removed (by capture). -/
theorem accepted_move_keeps_own_king (game : Game)
    (fromPos toPos : Position)
    (hcoh : Coherent game.board) (huniq : UniqueKeys game.board)
    (h : (makeMove game fromPos toPos).1 = true)
    (k : Piece) (hk : findKing game.board game.currentTurn = some k) :
    ∃ k2 : Piece,
      findKing (makeMove game fromPos toPos).2.board game.currentTurn =
        some k2 := by
  obtain ⟨piece, hp, hcolor, hvalid, heq⟩ :=
    makeMove_true_elim game fromPos toPos h
  have hmem := isValidMove_mem piece toPos game.board hvalid
  have hsound := valid_moves_sound_core piece game.board toPos hmem
  have hposeq := getPiece_coherent game.board fromPos piece hcoh hp
  have hne : fromPos ≠ toPos := by
    rw [← hposeq]
    exact fun hx => hsound.2.1 hx.symm
  rw [heq]
  unfold updateGameState
  dsimp only
  suffices hx : ∃ p ∈ getPiecesByColor (movePiece game.board fromPos toPos).2
      game.currentTurn, (p.type == PieceType.king) = true by
    obtain ⟨p, hpmem, hptype⟩ := hx
    exact exists_find?_of_mem _ _ p hpmem hptype
  by_cases hking : piece.type = PieceType.king
  · -- the mover is the king itself; it survives at the destination
    obtain ⟨-, hto⟩ :=
      movePiece_board_effect game.board fromPos toPos piece hp hne
    refine ⟨{ piece with
        position := toPos,
        hasMoved := piece.hasMoved.map (fun _ => true) }, ?_, ?_⟩
    · rw [mem_getPiecesByColor]
      refine ⟨⟨(toPos, _), getPiece_some_mem _ _ _ hto, rfl⟩, ?_⟩
      simpa using hcolor
    · simpa using hking
  · -- the mover is not a king, so the found king's entry survives intact
    unfold findKing at hk
    obtain ⟨hkmem, hktype⟩ := find?_mem_and _ _ _ hk
    obtain ⟨⟨e, he, hek⟩, hkcolor⟩ := (mem_getPiecesByColor _ _ _).mp hkmem
    have hkp : getPiece game.board e.1 = some k := by
      rw [getPiece_eq_of_mem_unique game.board e huniq he, hek]
    have hkne : k ≠ piece := by
      intro hkx
      apply hking
      rw [← hkx]
      exact beq_iff_eq.mp hktype
    have hef : e.1 ≠ fromPos := by
      intro hx
      rw [hx, hp] at hkp
      exact hkne (Option.some.inj hkp).symm
    have het : e.1 ≠ toPos := by
      intro hx
      rw [hx] at hkp
      apply hsound.2.2 k hkp
      rw [beq_iff_eq.mp hkcolor, hcolor]
    refine ⟨k, ?_, hktype⟩
    rw [mem_getPiecesByColor]
    exact ⟨⟨e, movePiece_mem_preserved game.board fromPos toPos piece hp
      e he hef het, hek⟩, hkcolor⟩

/-- The white king of `smallSampleGame`. -/
def smallWhiteKing : Piece :=
  { type := PieceType.king, color := PieceColor.white,
    position := ⟨1, 1, 1⟩, hasMoved := some false }

/-- Witness for `accepted_move_keeps_own_king`: after White's accepted pawn
move in `smallSampleGame`, White still has a king on the board. -/
theorem accepted_move_keeps_own_king_witness :
    ∃ k2 : Piece,
      findKing (makeMove smallSampleGame ⟨4, 4, 4⟩ ⟨4, 5, 4⟩).2.board
        PieceColor.white = some k2 :=
  accepted_move_keeps_own_king smallSampleGame ⟨4, 4, 4⟩ ⟨4, 5, 4⟩
    (by decide) (by decide) (by decide) smallWhiteKing (by decide)

/-- Witness for `accepted_move_updates_atomically`, at the same accepted
pawn move of `smallSampleGame`. -/
theorem accepted_move_updates_atomically_witness :
    (makeMove smallSampleGame ⟨4, 4, 4⟩ ⟨4, 5, 4⟩).2.moves.length =
        smallSampleGame.moves.length + 1 ∧
      (makeMove smallSampleGame ⟨4, 4, 4⟩ ⟨4, 5, 4⟩).2.currentTurn =
        oppositeColor smallSampleGame.currentTurn ∧
      getPiece (makeMove smallSampleGame ⟨4, 4, 4⟩ ⟨4, 5, 4⟩).2.board
        ⟨4, 4, 4⟩ = none ∧
      (∃ piece : Piece,
        getPiece smallSampleGame.board ⟨4, 4, 4⟩ = some piece ∧
        getPiece (makeMove smallSampleGame ⟨4, 4, 4⟩ ⟨4, 5, 4⟩).2.board
            ⟨4, 5, 4⟩ =
          some { piece with
            position := ⟨4, 5, 4⟩,
            hasMoved := piece.hasMoved.map (fun _ => true) }) :=
  accepted_move_updates_atomically smallSampleGame ⟨4, 4, 4⟩ ⟨4, 5, 4⟩
    (by decide) (by decide)

set_option maxRecDepth 100000 in
/-- C2 counterexample: the accepted knight move (2,1,1) → (3,3,1) in the
fresh game leaves the knight at the destination with `hasMoved` still
absent rather than `true` — knights are created without the field and
`movePiece` sets it only when present. -/
theorem knight_keeps_hasMoved_absent :
    (makeMove createGame ⟨2, 1, 1⟩ ⟨3, 3, 1⟩).1 = true ∧
      (getPiece (makeMove createGame ⟨2, 1, 1⟩ ⟨3, 3, 1⟩).2.board
          ⟨3, 3, 1⟩).map (fun p => p.hasMoved) = some none := by decide

/-- Ply 1 of the king-capture line: the white rook climbs to (1,1,3). -/
def huntPly1 : Bool × Game := makeMove createGame ⟨1, 1, 1⟩ ⟨1, 1, 3⟩

/-- Ply 2: a black pawn answers (1,7,1) → (1,6,1). -/
def huntPly2 : Bool × Game := makeMove huntPly1.2 ⟨1, 7, 1⟩ ⟨1, 6, 1⟩

/-- Ply 3: the rook slides across the empty layer to (5,1,3). -/
def huntPly3 : Bool × Game := makeMove huntPly2.2 ⟨1, 1, 3⟩ ⟨5, 1, 3⟩

/-- Ply 4: the black pawn advances again. -/
def huntPly4 : Bool × Game := makeMove huntPly3.2 ⟨1, 6, 1⟩ ⟨1, 5, 1⟩

/-- Ply 5: the rook reaches (5,8,3), checking the black king from above. -/
def huntPly5 : Bool × Game := makeMove huntPly4.2 ⟨5, 1, 3⟩ ⟨5, 8, 3⟩

/-- Ply 6: Black, in check, plays an unrelated pawn move — the engine
accepts it because moves are never filtered against check. -/
def huntPly6 : Bool × Game := makeMove huntPly5.2 ⟨2, 7, 1⟩ ⟨2, 6, 1⟩

/-- Ply 7: the rook drops to (5,8,1) and captures the black king. -/
def huntPly7 : Bool × Game := makeMove huntPly6.2 ⟨5, 8, 3⟩ ⟨5, 8, 1⟩

set_option maxRecDepth 1000000 in
/-- C1 counterexample: all seven plies of the hunt line are accepted by
`makeMove` starting from `createGame`, and afterwards the black king is no
longer on the board. -/
theorem king_capture_reachable :
    (huntPly1.1 && huntPly2.1 && huntPly3.1 && huntPly4.1 &&
      huntPly5.1 && huntPly6.1 && huntPly7.1) = true ∧
      findKing huntPly7.2.board PieceColor.black = none := by decide

set_option maxRecDepth 1000000 in
theorem roundtrip_all_coords :
    (List.all fileRange (fun x => List.all fileRange (fun y =>
      List.all fileRange (fun z =>
        notationToPosition ( positionToNotation ⟨x, y, z⟩) ==
          some ⟨x, y, z⟩)))) = true := by decide

theorem mem_fileRange_of_bounds (v : Int) (h1 : 1 ≤ v) (h8 : v ≤ 8) :
    v ∈ fileRange := by
  unfold fileRange
  simp only [List.mem_cons, List.mem_singleton, List.not_mem_nil, or_false]
  omega

/-- C9: encoding then decoding is the identity on every in-bounds
coordinate, (1,1,1) encodes to "A11", and decoding returns `none` for every
string shorter than three characters and only ever returns coordinates with
all three axes inside 1..8. -/
theorem notation_roundtrip_and_bounds :
    (∀ p : Position, isValidPosition p = true →
      notationToPosition ( positionToNotation p) = some p) ∧
    ( positionToNotation ⟨1, 1, 1⟩ = "A11" ∧
      notationToPosition "A11" = some ⟨1, 1, 1⟩) ∧
    (∀ s : String, s.length < 3 → notationToPosition s = none) ∧
    (∀ (s : String) (p : Position), notationToPosition s = some p →
      (1 ≤ p.x ∧ p.x ≤ 8) ∧ (1 ≤ p.y ∧ p.y ≤ 8) ∧
        (1 ≤ p.z ∧ p.z ≤ 8)) := by
  refine ⟨?_, ⟨by decide, by decide⟩, ?_, ?_⟩
  · intro p hval
    unfold isValidPosition at hval
    simp only [Bool.and_eq_true, decide_eq_true_eq] at hval
    obtain ⟨⟨⟨⟨⟨hx1, hx8⟩, hy1⟩, hy8⟩, hz1⟩, hz8⟩ := hval
    have hx := mem_fileRange_of_bounds p.x hx1 hx8
    have hy := mem_fileRange_of_bounds p.y hy1 hy8
    have hz := mem_fileRange_of_bounds p.z hz1 hz8
    have h1 := List.all_eq_true.mp roundtrip_all_coords p.x hx
    have h2 := List.all_eq_true.mp h1 p.y hy
    have h3 := List.all_eq_true.mp h2 p.z hz
    have h4 := beq_iff_eq.mp h3
    have hpeta : (⟨p.x, p.y, p.z⟩ : Position) = p := rfl
    rw [hpeta] at h4
    exact h4
  · intro s hlen
    unfold notationToPosition
    rw [if_pos hlen]
  · intro s p hsp
    unfold notationToPosition at hsp
    by_cases hlen : s.length < 3
    · rw [if_pos hlen] at hsp
      cases hsp
    · rw [if_neg hlen] at hsp
      cases hd : s.data with
      | nil =>
        rw [hd] at hsp
        cases hsp
      | cons c0 t =>
        cases t with
        | nil =>
          rw [hd] at hsp
          cases hsp
        | cons c1 rest =>
          rw [hd] at hsp
          dsimp only at hsp
          cases hy : parseIntJS (String.mk [c1]) with
          | none =>
            rw [hy] at hsp
            cases hz : parseIntJS (String.mk rest) with
            | none =>
              rw [hz] at hsp
              cases hsp
            | some z =>
              rw [hz] at hsp
              cases hsp
          | some y =>
            rw [hy] at hsp
            cases hz : parseIntJS (String.mk rest) with
            | none =>
              rw [hz] at hsp
              cases hsp
            | some z =>
              rw [hz] at hsp
              dsimp only at hsp
              by_cases hb : ((c0.toUpper.toNat : Int) - 65 + 1 < 1 ||
                  (c0.toUpper.toNat : Int) - 65 + 1 > 8 ||
                  y < 1 || y > 8 || z < 1 || z > 8) = true
              · rw [if_pos hb] at hsp
                cases hsp
              · rw [if_neg hb] at hsp
                obtain rfl := (Option.some.inj hsp).symm
                simp only [Bool.or_eq_true, decide_eq_true_eq, not_or] at hb
                refine ⟨⟨?_, ?_⟩, ⟨?_, ?_⟩, ?_, ?_⟩ <;> dsimp only <;> omega

/-- Witness for `notation_roundtrip_and_bounds`: the round trip at (2,3,4)
and the rejection of the two-character string "A1". -/
theorem notation_roundtrip_and_bounds_witness :
    notationToPosition ( positionToNotation ⟨2, 3, 4⟩) =
        some ⟨2, 3, 4⟩ ∧
      notationToPosition "A1" = none :=
  ⟨notation_roundtrip_and_bounds.1 ⟨2, 3, 4⟩ (by decide),
    notation_roundtrip_and_bounds.2.2.1 "A1" (by decide)⟩
